import Mathlib

/-!
# Formal model of the PDF header-based chunker (`simple_main.py`)

Text is modelled as `List Char`.  Python string operations (`strip`,
`split`, `isupper`, `istitle`, `lower`, substring tests, the two regular
expressions of the program) are translated to executable Lean functions on
character lists, restricted to their ASCII behaviour.  Each definition
mirrors the corresponding piece of the source program.
-/

/-- Python whitespace characters (`str.strip`, `str.split()`, regex `\s`),
ASCII fragment: space, tab, newline, carriage return, vertical tab, form feed. -/
def isSpaceChar (c : Char) : Bool :=
  c = ' ' || c = '\t' || c = '\n' || c = '\r' || c = '\x0b' || c = '\x0c'

/-- ASCII decimal digit (regex `\d`). -/
def isDigitChar (c : Char) : Bool := '0' ≤ c && c ≤ '9'

/-- ASCII uppercase letter (regex `[A-Z]`, Python `isupper` on a letter). -/
def isUpperChar (c : Char) : Bool := 'A' ≤ c && c ≤ 'Z'

/-- ASCII lowercase letter. -/
def isLowerChar (c : Char) : Bool := 'a' ≤ c && c ≤ 'z'

/-- A cased character (ASCII): a letter. -/
def isCasedChar (c : Char) : Bool := isUpperChar c || isLowerChar c

/-- ASCII letter or digit (regex `[a-zA-Z0-9]`). -/
def isAlphaNumChar (c : Char) : Bool := isUpperChar c || isLowerChar c || isDigitChar c

/-- Python `str.lower`, ASCII fragment. -/
def toLowerChar (c : Char) : Char :=
  if isUpperChar c then Char.ofNat (c.toNat + 32) else c

/-- Python `text.split('\n')`: always returns at least one (possibly empty) piece. -/
def splitLines : List Char → List (List Char)
  | [] => [[]]
  | c :: rest =>
    if c = '\n' then [] :: splitLines rest
    else
      match splitLines rest with
      | [] => [[c]]
      | l :: ls => (c :: l) :: ls

/-- Python `str.strip()`: drop leading and trailing whitespace. -/
def strip (l : List Char) : List Char :=
  ((l.dropWhile isSpaceChar).reverse.dropWhile isSpaceChar).reverse

/-- Helper for `pyWords`: accumulate the current (reversed) word. -/
def wordsAux : List Char → List Char → List (List Char)
  | [], cur => if cur.isEmpty then [] else [cur.reverse]
  | c :: rest, cur =>
    if isSpaceChar c then
      (if cur.isEmpty then wordsAux rest [] else cur.reverse :: wordsAux rest [])
    else wordsAux rest (c :: cur)

/-- Python `str.split()` with no argument: maximal non-whitespace runs. -/
def pyWords (l : List Char) : List (List Char) := wordsAux l []

/-- Python `str.isupper()`: at least one cased character and no lowercase one. -/
def pyIsUpper (l : List Char) : Bool :=
  l.any isCasedChar && l.all (fun c => !isCasedChar c || isUpperChar c)

/-- Helper for `pyIsTitle`: state is (previous char was cased, some cased char seen). -/
def isTitleAux : List Char → Bool → Bool → Bool
  | [], _, seenCased => seenCased
  | c :: rest, prevCased, seenCased =>
    if isUpperChar c then
      (if prevCased then false else isTitleAux rest true true)
    else if isLowerChar c then
      (if prevCased then isTitleAux rest true true else false)
    else isTitleAux rest false seenCased

/-- Python `str.istitle()`, ASCII fragment: uppercase letters only after uncased
characters, lowercase letters only after cased ones, at least one cased character. -/
def pyIsTitle (l : List Char) : Bool := isTitleAux l false false

/-- Python `line.endswith('.')`. -/
def endsWithDot (l : List Char) : Bool :=
  match l.getLast? with
  | some '.' => true
  | _ => false

/-- `isPrefixList pat l`: `pat` is a leading segment of `l`. -/
def isPrefixList : List Char → List Char → Bool
  | [], _ => true
  | _ :: _, [] => false
  | a :: as, b :: bs => a = b && isPrefixList as bs

/-- Python `pat in s`: `pat` occurs as a contiguous substring of `s`. -/
def containsSub (pat : List Char) : List Char → Bool
  | [] => pat.isEmpty
  | c :: rest => isPrefixList pat (c :: rest) || containsSub pat rest

/-- Tail of the regex `^\d+(\.\d+)*\.?\s+[A-Z]` after the first digit:
`mode = false` while inside a digit group, `mode = true` right after the
optional/group dot.  On leaving the numeric prefix, require `\s+[A-Z]`. -/
def numberedTail : Bool → List Char → Bool
  | _, [] => false
  | mode, c :: rest =>
    if isDigitChar c then numberedTail false rest
    else if !mode && c = '.' then numberedTail true rest
    else
      (if isSpaceChar c then
        match rest.dropWhile isSpaceChar with
        | [] => false
        | d :: _ => isUpperChar d
      else false)

/-- `re.match(r'^\d+(\.\d+)*\.?\s+[A-Z]', line)` (source line 39). -/
def matchNumbered : List Char → Bool
  | [] => false
  | c :: rest => isDigitChar c && numberedTail false rest

/-- Header rule 1 (source line 39): numbered-section pattern. -/
def ruleNumbered (l : List Char) : Bool := matchNumbered l

/-- Header rule 2 (source line 43): short all-caps line with more than one word. -/
def ruleAllCaps (l : List Char) : Bool :=
  decide (l.length < 80) && pyIsUpper l && decide ((pyWords l).length > 1)

/-- Header rule 3 (source lines 47-50): short title-case line, no trailing
period, more than one word. -/
def ruleTitleCase (l : List Char) : Bool :=
  decide (l.length < 60) && pyIsTitle l && !endsWithDot l &&
    decide ((pyWords l).length > 1)

/-- The 12 fixed header keywords (source lines 55-57). -/
def headerKeywords : List (List Char) :=
  ["introduction".toList, "overview".toList, "specification".toList,
   "features".toList, "description".toList, "operation".toList,
   "configuration".toList, "registers".toList, "timing".toList,
   "electrical".toList, "mechanical".toList, "package".toList]

/-- Header rule 4 (source lines 54-58): short line containing a keyword. -/
def ruleKeyword (l : List Char) : Bool :=
  headerKeywords.any (fun k => containsSub k (l.map toLowerChar)) &&
    decide (l.length < 80)

/-- The `is_header` elif chain of `detect_headers` (source lines 36-59). -/
def is_header (l : List Char) : Bool :=
  if ruleNumbered l then true
  else if ruleAllCaps l then true
  else if ruleTitleCase l then true
  else if ruleKeyword l then true
  else false

/-- The per-line loop of `detect_headers` (source lines 30-62): strip each
line, skip empty lines, keep lines classified as headers. -/
def detectAux : List (List Char) → List (List Char)
  | [] => []
  | line :: rest =>
    if (strip line).isEmpty then detectAux rest
    else if is_header (strip line) then strip line :: detectAux rest
    else detectAux rest

/-- `PDFHeaderChunker.detect_headers` (source lines 25-64). -/
def detect_headers (text : List Char) : List (List Char) := detectAux (splitLines text)

/-- A content chunk: a header and a body. -/
structure Chunk where
  header : List Char
  content : List Char
deriving DecidableEq

/-- `x in headers` for a Python list of strings. -/
def listMem (x : List Char) (l : List (List Char)) : Bool :=
  l.any (fun y => decide (y = x))

/-- The scanning loop of `extract_content_between_headers`
(source lines 75-92): current chunk is `⟨hdr, content⟩`. -/
def extractAux (headers : List (List Char)) :
    List (List Char) → List Char → List Char → List Chunk
  | [], hdr, content =>
    if (strip content).isEmpty then [] else [⟨hdr, content⟩]
  | line :: rest, hdr, content =>
    if listMem (strip line) headers then
      (if (strip content).isEmpty then [] else [⟨hdr, content⟩]) ++
        extractAux headers rest (strip line) []
    else extractAux headers rest hdr (content ++ line ++ ['\n'])

/-- `PDFHeaderChunker.extract_content_between_headers` (source lines 66-94). -/
def extract_content_between_headers (text : List Char) (headers : List (List Char)) :
    List Chunk :=
  if headers.isEmpty then [⟨"Main Content".toList, text⟩]
  else extractAux headers (splitLines text) "Introduction".toList []

/-- Remainder after the leading match of `re.sub(r'^\d+(\.\d+)*\.?\s*', '', -)`
once the first digit is consumed.  `mode = true` right after a consumed dot. -/
def stripNumRest : Bool → List Char → List Char
  | _, [] => []
  | mode, c :: rest =>
    if isDigitChar c then stripNumRest false rest
    else if !mode && c = '.' then stripNumRest true rest
    else (c :: rest).dropWhile isSpaceChar

/-- `re.sub(r'^\d+(\.\d+)*\.?\s*', '', text)` (source line 99). -/
def stripNumbering (l : List Char) : List Char :=
  match l with
  | [] => []
  | c :: rest => if isDigitChar c then stripNumRest false rest else c :: rest

/-- Helper for `collapseWs`: the flag records whether we are inside a
whitespace run whose underscore was already emitted. -/
def collapseWsAux : Bool → List Char → List Char
  | _, [] => []
  | inRun, c :: rest =>
    if isSpaceChar c then
      (if inRun then collapseWsAux true rest else '_' :: collapseWsAux true rest)
    else c :: collapseWsAux false rest

/-- `re.sub(r'\s+', '_', text)` (source line 103). -/
def collapseWs (l : List Char) : List Char := collapseWsAux false l

/-- `PDFHeaderChunker.clean_filename` (source lines 96-110). -/
def clean_filename (text : List Char) : List Char :=
  let t1 := stripNumbering text
  let t2 := t1.filter (fun c => isAlphaNumChar c || isSpaceChar c)
  let t3 := collapseWs (strip t2)
  let t4 := t3.map toLowerChar
  let t5 := if t4.length > 50 then t4.take 50 else t4
  if t5.isEmpty then "section".toList else t5

/-- The filename actually attached to a chunk (source line 137):
`clean_filename(header) + ".md"`. -/
def derive_filename (header : List Char) : List Char :=
  clean_filename header ++ ".md".toList

/-- The six fixed categories (source lines 121-132). -/
inductive Category where
  | registers
  | specifications
  | overview
  | operation
  | mechanical
  | general
deriving DecidableEq

/-- `any(keyword in lowered for keyword in kws)`. -/
def containsAny (lowered : List Char) (kws : List (List Char)) : Bool :=
  kws.any (fun k => containsSub k lowered)

/-- The category branch chain of `create_directory_structure`
(source lines 121-132). -/
def categorize (header : List Char) : Category :=
  let lh := header.map toLowerChar
  if containsAny lh ["register".toList, "configuration".toList, "control".toList] then
    Category.registers
  else if containsAny lh ["timing".toList, "electrical".toList, "specification".toList] then
    Category.specifications
  else if containsAny lh ["feature".toList, "overview".toList, "description".toList] then
    Category.overview
  else if containsAny lh ["operation".toList, "mode".toList, "function".toList] then
    Category.operation
  else if containsAny lh ["package".toList, "mechanical".toList, "pin".toList] then
    Category.mechanical
  else Category.general

/-- A file record of the directory structure (source lines 138-142). -/
structure FileRec where
  filename : List Char
  header : List Char
  content : List Char
deriving DecidableEq

/-- Append a file to its category, creating the category entry on first use
(Python dict insertion-order semantics, source lines 134-142). -/
def addToStructure (s : List (Category × List FileRec)) (cat : Category) (f : FileRec) :
    List (Category × List FileRec) :=
  match s with
  | [] => [(cat, [f])]
  | (c, fs) :: rest =>
    if c = cat then (c, fs ++ [f]) :: rest else (c, fs) :: addToStructure rest cat f

/-- `PDFHeaderChunker.create_directory_structure` (source lines 112-144). -/
def create_directory_structure (chunks : List Chunk) : List (Category × List FileRec) :=
  chunks.foldl
    (fun s ch =>
      addToStructure s (categorize ch.header)
        ⟨derive_filename ch.header, ch.header, strip ch.content⟩)
    []

/-- The duplicate-removal loop of `process_pdf` (source lines 219-225),
with the `seen` set modelled as a list. -/
def dedupAux (seen : List (List Char)) : List (List Char) → List (List Char)
  | [] => []
  | h :: rest =>
    if listMem h seen then dedupAux seen rest
    else h :: dedupAux (h :: seen) rest

/-- `unique_headers` of `process_pdf` (source lines 220-225). -/
def uniqueHeaders (l : List (List Char)) : List (List Char) := dedupAux [] l

/-- Decimal digit character. -/
def digitChar (n : Nat) : Char :=
  if n = 0 then '0' else if n = 1 then '1' else if n = 2 then '2'
  else if n = 3 then '3' else if n = 4 then '4' else if n = 5 then '5'
  else if n = 6 then '6' else if n = 7 then '7' else if n = 8 then '8' else '9'

/-- Fuel-driven decimal rendering helper. -/
def natDecimalAux : Nat → Nat → List Char → List Char
  | 0, _, acc => acc
  | fuel + 1, n, acc =>
    if n = 0 then acc else natDecimalAux fuel (n / 10) (digitChar (n % 10) :: acc)

/-- Decimal rendering of a natural number, as in a Python f-string. -/
def natDecimal (n : Nat) : List Char :=
  if n = 0 then ['0'] else natDecimalAux (n + 1) n []

/-- The synthetic page separator line `--- PAGE {n} ---` (source line 211,
without the surrounding newlines of the f-string). -/
def pageMarkerLine (n : Nat) : List Char :=
  ['-', '-', '-', ' ', 'P', 'A', 'G', 'E', ' '] ++ natDecimal n ++ [' ', '-', '-', '-']

/-- The `all_text` accumulation of `process_pdf` (source lines 205-211):
each non-empty page text is prepended with `"\n--- PAGE {n} ---\n"`;
a page with no text (`if text:` false) contributes nothing. -/
def buildFullTextAux : Nat → List (List Char) → List Char
  | _, [] => []
  | i, p :: rest =>
    if p.isEmpty then buildFullTextAux (i + 1) rest
    else ('\n' :: (pageMarkerLine (i + 1) ++ '\n' :: p)) ++ buildFullTextAux (i + 1) rest

/-- `all_text` of `process_pdf` over the processed pages. -/
def buildFullText (pages : List (List Char)) : List Char := buildFullTextAux 0 pages

/-- The `all_headers` accumulation of `process_pdf` (source lines 213-215). -/
def collectPageHeaders (pages : List (List Char)) : List (List Char) :=
  pages.foldr (fun p acc => if p.isEmpty then acc else detect_headers p ++ acc) []

/-- The deduplicated header list of `process_pdf`. -/
def collectHeaders (pages : List (List Char)) : List (List Char) :=
  uniqueHeaders (collectPageHeaders pages)

/-- `pages_to_process` of `process_pdf` (source lines 197-201). -/
def pagesToProcessCount (maxPages : Option Int) (total : Nat) : Int :=
  match maxPages with
  | none => (total : Int)
  | some m => if m = -1 then (total : Int) else min m (total : Int)

/-- Length of the Python slice `l[:k]` for a list of length `len`. -/
def sliceLen (k : Int) (len : Nat) : Nat :=
  if 0 ≤ k then min k.toNat len else len - (-k).toNat

/-- The pages actually iterated by `process_pdf`:
`pdf.pages[:pages_to_process]` (source line 205). -/
def pagesSelected (maxPages : Option Int) (pages : List (List Char)) :
    List (List Char) :=
  pages.take (sliceLen (pagesToProcessCount maxPages pages.length) pages.length)


/-!
## Basic lemmas about line splitting
-/

theorem splitLines_ne_nil (l : List Char) : splitLines l ≠ [] := by
  cases l with
  | nil => simp [splitLines]
  | cons c rest =>
    simp only [splitLines]
    split
    · simp
    · cases h : splitLines rest <;> simp

/-- Join a list of lines, terminating each with a newline. -/
def joinNl : List (List Char) → List Char
  | [] => []
  | l :: ls => l ++ '\n' :: joinNl ls

theorem joinNl_splitLines (l : List Char) : joinNl (splitLines l) = l ++ ['\n'] := by
  induction l with
  | nil => rfl
  | cons c rest ih =>
    by_cases h : c = '\n'
    · subst h
      simp [splitLines, joinNl, ih]
    · obtain ⟨l0, ls, heq⟩ : ∃ l0 ls, splitLines rest = l0 :: ls := by
        cases hh : splitLines rest with
        | nil => exact absurd hh (splitLines_ne_nil rest)
        | cons a b => exact ⟨a, b, rfl⟩
      have hsplit : splitLines (c :: rest) = (c :: l0) :: ls := by
        simp only [splitLines, if_neg h, heq]
      rw [hsplit, joinNl]
      have ih' : joinNl (l0 :: ls) = rest ++ ['\n'] := heq ▸ ih
      rw [joinNl] at ih'
      simp [List.cons_append, ih']

theorem splitLines_append (a z : List Char) :
    splitLines (a ++ '\n' :: z) = splitLines a ++ splitLines z := by
  induction a with
  | nil => simp [splitLines]
  | cons c a ih =>
    by_cases h : c = '\n'
    · subst h
      simp [splitLines, ih]
    · obtain ⟨l0, ls, heq⟩ : ∃ l0 ls, splitLines a = l0 :: ls := by
        cases hh : splitLines a with
        | nil => exact absurd hh (splitLines_ne_nil a)
        | cons x y => exact ⟨x, y, rfl⟩
      have h1 : splitLines (c :: a) = (c :: l0) :: ls := by
        simp only [splitLines, if_neg h, heq]
      have hmid : splitLines (a ++ '\n' :: z) = l0 :: (ls ++ splitLines z) := by
        rw [ih, heq]; rfl
      have h2 : splitLines (c :: a ++ '\n' :: z) = (c :: l0) :: (ls ++ splitLines z) := by
        rw [List.cons_append]
        simp only [splitLines, if_neg h, List.append_eq, hmid]
      rw [h1, h2]
      simp

theorem splitLines_no_newline (m : List Char) (h : ∀ c ∈ m, c ≠ '\n') :
    splitLines m = [m] := by
  induction m with
  | nil => rfl
  | cons c rest ih =>
    have hc : c ≠ '\n' := h c (List.mem_cons_self c rest)
    have ih' : splitLines rest = [rest] := ih (fun x hx => h x (List.mem_cons_of_mem c hx))
    simp only [splitLines, if_neg hc, ih']

/-!
## Lemmas about substring occurrence
-/

theorem isPrefixList_self_append (pat b : List Char) :
    isPrefixList pat (pat ++ b) = true := by
  induction pat with
  | nil => rfl
  | cons c r ih => simp [isPrefixList, ih]

theorem isPrefixList_append_of (pat s b : List Char)
    (h : isPrefixList pat s = true) : isPrefixList pat (s ++ b) = true := by
  induction pat generalizing s with
  | nil => rfl
  | cons c r ih =>
    cases s with
    | nil => exact absurd h (by simp [isPrefixList])
    | cons x xs =>
      simp only [isPrefixList, Bool.and_eq_true, decide_eq_true_eq] at h
      simp [isPrefixList, h.1, ih xs h.2]

theorem containsSub_nil_pat (s : List Char) : containsSub [] s = true := by
  cases s <;> simp [containsSub, isPrefixList, List.isEmpty]

theorem containsSub_at (a pat b : List Char) :
    containsSub pat (a ++ pat ++ b) = true := by
  induction a with
  | nil =>
    cases pat with
    | nil => simpa using containsSub_nil_pat b
    | cons p ps =>
      simp only [List.nil_append, List.cons_append, containsSub]
      have : isPrefixList (p :: ps) ((p :: ps) ++ b) = true :=
        isPrefixList_self_append _ _
      simp only [List.cons_append] at this
      simp [this]
  | cons c r ih =>
    simp only [List.cons_append, containsSub]
    simp only [List.append_assoc] at ih ⊢
    simp [ih]

theorem containsSub_append_right (pat a b : List Char)
    (h : containsSub pat a = true) : containsSub pat (a ++ b) = true := by
  induction a with
  | nil =>
    have : pat = [] := by
      cases pat with
      | nil => rfl
      | cons p ps => simp [containsSub, List.isEmpty] at h
    subst this
    exact containsSub_nil_pat b
  | cons c r ih =>
    simp only [containsSub, Bool.or_eq_true] at h
    rcases h with h | h
    · simp only [List.cons_append, containsSub]
      have := isPrefixList_append_of pat (c :: r) b h
      simp only [List.cons_append] at this
      simp [this]
    · simp only [List.cons_append, containsSub]
      simp [ih h]

/-!
## Lemmas about `strip`
-/

theorem mem_of_mem_dropWhile {p : Char → Bool} {l : List Char} {x : Char}
    (h : x ∈ l.dropWhile p) : x ∈ l :=
  (List.dropWhile_sublist p).mem h  -- placeholder, fixed below if needed

theorem strip_eq_nil_iff (l : List Char) :
    strip l = [] ↔ ∀ c ∈ l, isSpaceChar c = true := by
  unfold strip
  rw [List.reverse_eq_nil_iff, List.dropWhile_eq_nil_iff]
  constructor
  · intro h c hc
    by_cases hmem : c ∈ l.dropWhile isSpaceChar
    · exact h c (by simpa using hmem)
    · have hl : l = l.takeWhile isSpaceChar ++ l.dropWhile isSpaceChar :=
        (List.takeWhile_append_dropWhile isSpaceChar l).symm
      rw [hl] at hc
      rcases List.mem_append.mp hc with h1 | h2
      · exact List.mem_takeWhile_imp h1
      · exact absurd h2 hmem
  · intro h c hc
    exact h c (mem_of_mem_dropWhile (by simpa using hc))

theorem strip_cons_append (c : Char) (l : List Char) (c' : Char)
    (hc : isSpaceChar c = false) (hc' : isSpaceChar c' = false) :
    strip (c :: (l ++ [c'])) = c :: (l ++ [c']) := by
  unfold strip
  rw [List.dropWhile_cons, if_neg (by simp [hc])]
  have hrev : (c :: (l ++ [c'])).reverse = c' :: (l.reverse ++ [c]) := by
    simp
  rw [hrev, List.dropWhile_cons, if_neg (by simp [hc'])]
  rw [← hrev, List.reverse_reverse]

/-!
## Chunker machinery

`extractAllAux` is the no-drop variant of the scanning loop: it keeps every
segment, including the all-whitespace ones that `extract_content_between_headers`
discards.  It is proof machinery, used to state what reconstruction property
actually holds.
-/

/-- Variant of `extractAux` that also keeps chunks with all-whitespace content. -/
def extractAllAux (headers : List (List Char)) :
    List (List Char) → List Char → List Char → List Chunk
  | [], hdr, content => [⟨hdr, content⟩]
  | line :: rest, hdr, content =>
    if listMem (strip line) headers then
      ⟨hdr, content⟩ :: extractAllAux headers rest (strip line) []
    else extractAllAux headers rest hdr (content ++ line ++ ['\n'])

/-- The raw lines of the input whose trimmed form is one of the headers. -/
def headerRawLines (headers : List (List Char)) (lines : List (List Char)) :
    List (List Char) :=
  lines.filter (fun l => listMem (strip l) headers)

/-- Interleave chunk bodies with the removed header lines, each
newline-terminated, in original order. -/
def weaveBodies : List Chunk → List (List Char) → List Char
  | [], _ => []
  | ch :: rest, [] => ch.content ++ weaveBodies rest []
  | ch :: rest, hl :: hls => ch.content ++ hl ++ '\n' :: weaveBodies rest hls

theorem extractAux_eq_filter (headers : List (List Char)) (lines : List (List Char))
    (hdr content : List Char) :
    extractAux headers lines hdr content =
      (extractAllAux headers lines hdr content).filter
        (fun ch => !(strip ch.content).isEmpty) := by
  induction lines generalizing hdr content with
  | nil =>
    simp only [extractAux, extractAllAux, List.filter]
    cases h : (strip content).isEmpty <;> simp [h]
  | cons line rest ih =>
    simp only [extractAux, extractAllAux]
    by_cases h : listMem (strip line) headers = true
    · rw [if_pos h, if_pos h, List.filter_cons]
      cases hc : (strip content).isEmpty <;> simp [hc, ih]
    · rw [if_neg h, if_neg h]
      exact ih _ _

theorem extractAllAux_weave (headers : List (List Char)) (lines : List (List Char))
    (hdr content : List Char) :
    weaveBodies (extractAllAux headers lines hdr content)
      (headerRawLines headers lines) = content ++ joinNl lines := by
  induction lines generalizing hdr content with
  | nil => simp [extractAllAux, headerRawLines, weaveBodies, joinNl]
  | cons line rest ih =>
    by_cases h : listMem (strip line) headers = true
    · have hraw : headerRawLines headers (line :: rest) =
          line :: headerRawLines headers rest := by
        simp [headerRawLines, List.filter_cons, h]
      simp only [extractAllAux, if_pos h, hraw, weaveBodies, ih, joinNl]
      simp [List.append_assoc]
    · have hraw : headerRawLines headers (line :: rest) = headerRawLines headers rest := by
        simp [headerRawLines, List.filter_cons, h]
      simp only [extractAllAux, if_neg h, hraw, ih, joinNl]
      simp [List.append_assoc]

/-- One scan step of the Chunker as worded in the spec: on a header line,
close the current chunk (kept only if its trimmed content is non-empty) and
open a fresh one; otherwise append the raw line plus a terminator. -/
def chunkStep (headers : List (List Char)) (st : List Chunk × Chunk)
    (line : List Char) : List Chunk × Chunk :=
  if listMem (strip line) headers then
    (st.1 ++ (if (strip st.2.content).isEmpty then [] else [st.2]), ⟨strip line, []⟩)
  else (st.1, ⟨st.2.header, st.2.content ++ line ++ ['\n']⟩)

/-- Close the final chunk after the scan. -/
def flushChunks (st : List Chunk × Chunk) : List Chunk :=
  st.1 ++ (if (strip st.2.content).isEmpty then [] else [st.2])

/-- The Chunker exactly as described by the spec sentence: a line-by-line
scan from the state `{header: "Introduction", content: ""}`. -/
def chunkSpec (text : List Char) (headers : List (List Char)) : List Chunk :=
  flushChunks ((splitLines text).foldl (chunkStep headers)
    ([], ⟨"Introduction".toList, []⟩))

theorem foldl_chunkStep_eq (headers : List (List Char)) (lines : List (List Char)) :
    ∀ (acc : List Chunk) (hdr content : List Char),
      flushChunks (lines.foldl (chunkStep headers) (acc, ⟨hdr, content⟩)) =
        acc ++ extractAux headers lines hdr content := by
  induction lines with
  | nil => intro acc hdr content; simp [flushChunks, extractAux]
  | cons line rest ih =>
    intro acc hdr content
    by_cases h : listMem (strip line) headers = true
    · simp only [List.foldl_cons, chunkStep, if_pos h]
      rw [ih]
      simp only [extractAux, if_pos h]
      simp [List.append_assoc]
    · simp only [List.foldl_cons, chunkStep, if_neg h]
      rw [ih]
      simp only [extractAux, if_neg h]

theorem strip_isEmpty_false_iff (l : List Char) :
    ((strip l).isEmpty = false) ↔ ∃ c ∈ l, isSpaceChar c = false := by
  have h1 : ((strip l).isEmpty = false) ↔ ¬ strip l = [] := by
    cases h : strip l <;> simp [h]
  rw [h1, strip_eq_nil_iff]
  push_neg
  constructor
  · rintro ⟨c, hc, hne⟩
    exact ⟨c, hc, by simpa using hne⟩
  · rintro ⟨c, hc, hf⟩
    exact ⟨c, hc, by simp [hf]⟩

theorem extractAux_keeps (headers : List (List Char)) (pat : List Char) :
    ∀ (lines : List (List Char)) (hdr content : List Char),
      containsSub pat content = true → (strip content).isEmpty = false →
      ∃ ch, ch ∈ extractAux headers lines hdr content ∧
        containsSub pat ch.content = true := by
  intro lines
  induction lines with
  | nil =>
    intro hdr content h1 h2
    exact ⟨⟨hdr, content⟩, by simp [extractAux, h2], h1⟩
  | cons line rest ih =>
    intro hdr content h1 h2
    by_cases h : listMem (strip line) headers = true
    · refine ⟨⟨hdr, content⟩, ?_, h1⟩
      simp [extractAux, h, h2]
    · simp only [extractAux, if_neg h]
      apply ih
      · rw [List.append_assoc]
        exact containsSub_append_right pat content (line ++ ['\n']) h1
      · rw [strip_isEmpty_false_iff]
        obtain ⟨c, hc, hcs⟩ := (strip_isEmpty_false_iff content).mp h2
        exact ⟨c, by simp [hc], hcs⟩

theorem extractAux_line_in_body (headers : List (List Char)) (line : List Char)
    (hnh : listMem (strip line) headers = false)
    (hne : (strip line).isEmpty = false) :
    ∀ (lines : List (List Char)) (hdr content : List Char), line ∈ lines →
      ∃ ch, ch ∈ extractAux headers lines hdr content ∧
        containsSub (line ++ ['\n']) ch.content = true := by
  intro lines
  induction lines with
  | nil => intro hdr content h; simp at h
  | cons l0 rest ih =>
    intro hdr content hmem
    rcases List.mem_cons.mp hmem with rfl | hmem'
    · simp only [extractAux, if_neg (by simp [hnh] : ¬ listMem (strip line) headers = true)]
      apply extractAux_keeps
      · have hsh : content ++ line ++ ['\n'] = content ++ (line ++ ['\n']) ++ [] := by
          simp [List.append_assoc]
        rw [hsh]
        exact containsSub_at content (line ++ ['\n']) []
      · rw [strip_isEmpty_false_iff]
        obtain ⟨c, hc, hcs⟩ := (strip_isEmpty_false_iff line).mp hne
        exact ⟨c, by simp [hc], hcs⟩
    · by_cases h : listMem (strip l0) headers = true
      · simp only [extractAux, if_pos h]
        obtain ⟨ch, hch, hcc⟩ := ih (strip l0) [] hmem'
        exact ⟨ch, List.mem_append_right _ hch, hcc⟩
      · simp only [extractAux, if_neg h]
        exact ih hdr (content ++ l0 ++ ['\n']) hmem'

/-!
## Header detection characterization
-/

theorem is_header_eq_or (l : List Char) :
    is_header l = (ruleNumbered l || ruleAllCaps l || ruleTitleCase l || ruleKeyword l) := by
  unfold is_header
  cases ruleNumbered l <;> cases ruleAllCaps l <;>
    cases ruleTitleCase l <;> cases ruleKeyword l <;> simp

theorem detectAux_eq_filter (lines : List (List Char)) :
    detectAux lines = (lines.map strip).filter
      (fun l => !l.isEmpty &&
        (ruleNumbered l || ruleAllCaps l || ruleTitleCase l || ruleKeyword l)) := by
  induction lines with
  | nil => rfl
  | cons line rest ih =>
    simp only [detectAux, List.map_cons, List.filter_cons]
    by_cases h0 : (strip line).isEmpty = true
    · simp [h0, ih]
    · have h0' : (strip line).isEmpty = false := by
        cases h : (strip line).isEmpty
        · rfl
        · exact absurd h h0
      by_cases h1 : is_header (strip line) = true
      · have := is_header_eq_or (strip line)
        rw [h1] at this
        simp [h0', h1, ← this, ih]
      · have h1' : is_header (strip line) = false := by
          cases h : is_header (strip line)
          · rfl
          · exact absurd h h1
        have := is_header_eq_or (strip line)
        rw [h1'] at this
        simp [h0', h1', ← this, ih]

theorem mem_detect_headers {text h : List Char} (hmem : h ∈ detect_headers text) :
    ∃ line ∈ splitLines text, h = strip line := by
  unfold detect_headers at hmem
  rw [detectAux_eq_filter] at hmem
  have h1 := List.mem_of_mem_filter hmem
  obtain ⟨line, hline, rfl⟩ := List.mem_map.mp h1
  exact ⟨line, hline, rfl⟩

/-!
## Deduplication lemmas
-/

theorem listMem_iff (x : List Char) (l : List (List Char)) :
    listMem x l = true ↔ x ∈ l := by
  unfold listMem
  rw [List.any_eq_true]
  constructor
  · rintro ⟨y, hy, hxy⟩
    rw [decide_eq_true_eq] at hxy
    exact hxy ▸ hy
  · intro hx
    exact ⟨x, hx, by simp⟩

theorem mem_dedupAux {l : List (List Char)} :
    ∀ {seen x}, x ∈ dedupAux seen l → x ∈ l ∧ listMem x seen = false := by
  induction l with
  | nil => intro seen x h; simp [dedupAux] at h
  | cons a rest ih =>
    intro seen x h
    by_cases ha : listMem a seen = true
    · rw [dedupAux, if_pos ha] at h
      obtain ⟨h1, h2⟩ := ih h
      exact ⟨List.mem_cons_of_mem a h1, h2⟩
    · have ha' : listMem a seen = false := by
        cases hh : listMem a seen
        · rfl
        · exact absurd hh ha
      rw [dedupAux, if_neg ha] at h
      rcases List.mem_cons.mp h with rfl | h'
      · exact ⟨List.mem_cons_self _ _, ha'⟩
      · obtain ⟨h1, h2⟩ := ih h'
        refine ⟨List.mem_cons_of_mem a h1, ?_⟩
        cases hh : listMem x seen
        · rfl
        · exfalso
          have : x ∈ a :: seen := List.mem_cons_of_mem a ((listMem_iff x seen).mp hh)
          rw [← listMem_iff] at this
          rw [this] at h2
          exact Bool.noConfusion h2

theorem mem_dedupAux_of {l : List (List Char)} :
    ∀ {seen x}, x ∈ l → listMem x seen = false → x ∈ dedupAux seen l := by
  induction l with
  | nil => intro seen x h; simp at h
  | cons a rest ih =>
    intro seen x hx hseen
    rcases List.mem_cons.mp hx with rfl | hx'
    · rw [dedupAux, if_neg (by simp [hseen])]
      exact List.mem_cons_self _ _
    · by_cases ha : listMem a seen = true
      · rw [dedupAux, if_pos ha]
        exact ih hx' hseen
      · rw [dedupAux, if_neg ha]
        by_cases hxa : x = a
        · subst hxa
          exact List.mem_cons_self _ _
        · refine List.mem_cons_of_mem a (ih hx' ?_)
          cases hh : listMem x (a :: seen)
          · rfl
          · exfalso
            rcases List.mem_cons.mp ((listMem_iff x (a :: seen)).mp hh) with h | h
            · exact hxa h
            · rw [← listMem_iff] at h
              rw [h] at hseen
              exact Bool.noConfusion hseen

theorem nodup_dedupAux (l : List (List Char)) :
    ∀ seen, (dedupAux seen l).Nodup := by
  induction l with
  | nil => intro seen; simp [dedupAux]
  | cons a rest ih =>
    intro seen
    by_cases ha : listMem a seen = true
    · rw [dedupAux, if_pos ha]; exact ih seen
    · rw [dedupAux, if_neg ha]
      refine List.nodup_cons.mpr ⟨?_, ih (a :: seen)⟩
      intro hmem
      obtain ⟨_, h2⟩ := mem_dedupAux hmem
      have : listMem a (a :: seen) = true :=
        (listMem_iff a (a :: seen)).mpr (List.mem_cons_self _ _)
      rw [this] at h2
      exact Bool.noConfusion h2

theorem sublist_dedupAux (l : List (List Char)) :
    ∀ seen, List.Sublist (dedupAux seen l) l := by
  induction l with
  | nil => intro seen; simp [dedupAux]
  | cons a rest ih =>
    intro seen
    by_cases ha : listMem a seen = true
    · rw [dedupAux, if_pos ha]
      exact List.Sublist.cons a (ih seen)
    · rw [dedupAux, if_neg ha]
      exact List.Sublist.cons₂ a (ih (a :: seen))

/-- The canonical keep-first-occurrence function: keep the head, drop its
later duplicates, recurse. -/
def keepFirst : List (List Char) → List (List Char)
  | [] => []
  | x :: xs => x :: keepFirst (xs.filter (fun y => decide (y ≠ x)))
termination_by l => l.length
decreasing_by
  simp only [List.length_cons]
  exact Nat.lt_succ_of_le (List.length_filter_le _ _)

theorem dedupAux_eq_keepFirst (l : List (List Char)) :
    ∀ seen, dedupAux seen l = keepFirst (l.filter (fun x => !listMem x seen)) := by
  induction l with
  | nil => intro seen; simp [dedupAux, keepFirst]
  | cons a rest ih =>
    intro seen
    by_cases ha : listMem a seen = true
    · rw [dedupAux, if_pos ha, List.filter_cons, if_neg (by simp [ha])]
      exact ih seen
    · have ha' : listMem a seen = false := by
        cases hh : listMem a seen
        · rfl
        · exact absurd hh ha
      rw [dedupAux, if_neg ha, List.filter_cons, if_pos (by simp [ha'])]
      rw [keepFirst, ih (a :: seen), List.filter_filter]
      have hfil : List.filter (fun x => !listMem x (a :: seen)) rest =
          List.filter (fun y => decide (y ≠ a) && !listMem y seen) rest := by
        apply List.filter_congr
        intro x _
        have hx : listMem x (a :: seen) = (decide (x = a) || listMem x seen) := by
          by_cases h : x = a
          · subst h; simp [listMem, List.any_cons]
          · simp [listMem, List.any_cons, h, Ne.symm h]
        rw [hx]
        simp [Bool.not_or, decide_not]
      rw [hfil]

theorem uniqueHeaders_spec (l : List (List Char)) :
    uniqueHeaders l = keepFirst l ∧ (uniqueHeaders l).Nodup ∧
      List.Sublist (uniqueHeaders l) l ∧ ∀ x, x ∈ uniqueHeaders l ↔ x ∈ l := by
  refine ⟨?_, nodup_dedupAux l [], sublist_dedupAux l [], ?_⟩
  · rw [uniqueHeaders, dedupAux_eq_keepFirst l []]
    congr 1
    simp [listMem]
  · intro x
    constructor
    · intro h
      exact (mem_dedupAux h).1
    · intro h
      exact mem_dedupAux_of h (by simp [listMem])

/-!
## Page marker and full-text lemmas
-/

theorem isSpaceChar_digitChar (n : Nat) : isSpaceChar (digitChar n) = false := by
  unfold digitChar
  repeat' split
  all_goals rfl

theorem ne_newline_of_not_space (c : Char) (h : isSpaceChar c = false) : c ≠ '\n' := by
  intro hc
  subst hc
  simp [isSpaceChar] at h

theorem natDecimalAux_not_space :
    ∀ (fuel n : Nat) (acc : List Char),
      (∀ c ∈ acc, isSpaceChar c = false) →
      ∀ c ∈ natDecimalAux fuel n acc, isSpaceChar c = false := by
  intro fuel
  induction fuel with
  | zero => intro n acc hacc c hc; exact hacc c hc
  | succ fuel ih =>
    intro n acc hacc c hc
    rw [natDecimalAux] at hc
    by_cases hn : n = 0
    · rw [if_pos hn] at hc
      exact hacc c hc
    · rw [if_neg hn] at hc
      refine ih _ _ ?_ c hc
      intro d hd
      rcases List.mem_cons.mp hd with rfl | hd'
      · exact isSpaceChar_digitChar _
      · exact hacc d hd'

theorem natDecimal_not_space (n : Nat) : ∀ c ∈ natDecimal n, isSpaceChar c = false := by
  intro c hc
  unfold natDecimal at hc
  by_cases hn : n = 0
  · rw [if_pos hn] at hc
    simp only [List.mem_singleton] at hc
    subst hc
    rfl
  · rw [if_neg hn] at hc
    exact natDecimalAux_not_space (n + 1) n [] (by simp) c hc

theorem pageMarkerLine_no_newline (n : Nat) : ∀ c ∈ pageMarkerLine n, c ≠ '\n' := by
  intro c hc
  simp only [pageMarkerLine, List.mem_append] at hc
  rcases hc with (hc | hc) | hc
  · simp only [List.mem_cons, List.not_mem_nil, or_false] at hc
    rcases hc with rfl | rfl | rfl | rfl | rfl | rfl | rfl | rfl | rfl <;> decide
  · exact ne_newline_of_not_space c (natDecimal_not_space n c hc)
  · simp only [List.mem_cons, List.not_mem_nil, or_false] at hc
    rcases hc with rfl | rfl | rfl | rfl <;> decide

theorem strip_pageMarkerLine (n : Nat) : strip (pageMarkerLine n) = pageMarkerLine n := by
  have hdec : pageMarkerLine n =
      '-' :: ((['-', '-', ' ', 'P', 'A', 'G', 'E', ' '] ++ natDecimal n ++ [' ', '-', '-'])
        ++ ['-']) := by
    simp [pageMarkerLine, List.append_assoc]
  rw [hdec, strip_cons_append _ _ _ (by decide) (by decide)]

theorem pageMarkerLine_ne_nil (n : Nat) : pageMarkerLine n ≠ [] := by
  simp [pageMarkerLine]

theorem buildFullTextAux_marker (pages : List (List Char)) :
    ∀ (j i : Nat) (hi : i < pages.length), pages.get ⟨i, hi⟩ ≠ [] →
      ∃ pre suf, buildFullTextAux j pages =
        pre ++ '\n' :: (pageMarkerLine (j + i + 1) ++ '\n' :: suf) := by
  induction pages with
  | nil => intro j i hi; exact absurd hi (by simp)
  | cons p rest ih =>
    intro j i hi hne
    cases i with
    | zero =>
      have hget : (p :: rest).get ⟨0, hi⟩ = p := rfl
      rw [hget] at hne
      have hp : p.isEmpty = false := by
        cases p
        · exact absurd rfl hne
        · rfl
      refine ⟨[], p ++ buildFullTextAux (j + 1) rest, ?_⟩
      rw [buildFullTextAux, if_neg (by simp [hp])]
      simp [List.append_assoc]
    | succ i' =>
      have hi' : i' < rest.length := by simpa using hi
      have hget : rest.get ⟨i', hi'⟩ ≠ [] := by
        have : (p :: rest).get ⟨i' + 1, hi⟩ = rest.get ⟨i', hi'⟩ := rfl
        rw [this] at hne
        exact hne
      obtain ⟨pre, suf, heq⟩ := ih (j + 1) i' hi' hget
      have hidx : j + 1 + i' + 1 = j + (i' + 1) + 1 := by omega
      rw [hidx] at heq
      rw [buildFullTextAux]
      by_cases hp : p.isEmpty = true
      · rw [if_pos hp]
        exact ⟨pre, suf, heq⟩
      · rw [if_neg hp, heq]
        refine ⟨('\n' :: (pageMarkerLine (j + 1) ++ '\n' :: p)) ++ pre, suf, ?_⟩
        simp [List.append_assoc]

theorem mem_collectPageHeaders {pages : List (List Char)} {x : List Char}
    (h : x ∈ collectPageHeaders pages) : ∃ p ∈ pages, x ∈ detect_headers p := by
  induction pages with
  | nil => simp [collectPageHeaders] at h
  | cons p rest ih =>
    rw [collectPageHeaders, List.foldr_cons] at h
    by_cases hp : p.isEmpty = true
    · rw [if_pos hp] at h
      obtain ⟨q, hq, hx⟩ := ih h
      exact ⟨q, List.mem_cons_of_mem p hq, hx⟩
    · rw [if_neg hp] at h
      rcases List.mem_append.mp h with h1 | h2
      · exact ⟨p, List.mem_cons_self _ _, h1⟩
      · obtain ⟨q, hq, hx⟩ := ih h2
        exact ⟨q, List.mem_cons_of_mem p hq, hx⟩

theorem mem_collectHeaders {pages : List (List Char)} {x : List Char}
    (h : x ∈ collectHeaders pages) :
    ∃ p ∈ pages, ∃ line ∈ splitLines p, x = strip line := by
  have h1 : x ∈ collectPageHeaders pages := (mem_dedupAux h).1
  obtain ⟨p, hp, hx⟩ := mem_collectPageHeaders h1
  obtain ⟨line, hline, rfl⟩ := mem_detect_headers hx
  exact ⟨p, hp, line, hline, rfl⟩

/-!
## Page-limit lemmas
-/

theorem take_min_length (l : List (List Char)) (m : Nat) :
    l.take (min m l.length) = l.take m := by
  rcases Nat.le_total m l.length with h | h
  · rw [Nat.min_eq_left h]
  · rw [Nat.min_eq_right h, List.take_length, List.take_of_length_le h]

/-!
## Spec-side definitions

These definitions follow the wording of the specification (not the source)
and are compared against the source-derived definitions above.
-/

/-- The keyword table of the Categorizer as the spec words it: an ordered
list of (category, keyword set) pairs, tested in priority order. -/
def categoryTable : List (Category × List (List Char)) :=
  [(Category.registers, ["register".toList, "configuration".toList, "control".toList]),
   (Category.specifications, ["timing".toList, "electrical".toList, "specification".toList]),
   (Category.overview, ["feature".toList, "overview".toList, "description".toList]),
   (Category.operation, ["operation".toList, "mode".toList, "function".toList]),
   (Category.mechanical, ["package".toList, "mechanical".toList, "pin".toList])]

/-- First matching table row wins; `general` is the default. -/
def firstMatchCat : List (Category × List (List Char)) → List Char → Category
  | [], _ => Category.general
  | (cat, kws) :: rest, lowered =>
    if kws.any (fun k => containsSub k lowered) then cat
    else firstMatchCat rest lowered

/-- The Categorizer exactly as the spec words it: lowercase the header and
walk the keyword table in priority order. -/
def categorizeSpec (header : List Char) : Category :=
  firstMatchCat categoryTable (header.map toLowerChar)

/-- Filename derivation as literally worded by the claim: strip a leading
numbering prefix, keep only letters/digits/whitespace, collapse whitespace
runs to single underscores (with no trimming step), lowercase, truncate to
50, fall back to "section", append ".md". -/
def derive_filename_claim (text : List Char) : List Char :=
  let t1 := stripNumbering text
  let t2 := t1.filter (fun c => isAlphaNumChar c || isSpaceChar c)
  let t3 := collapseWs t2
  let t4 := t3.map toLowerChar
  let t5 := if t4.length > 50 then t4.take 50 else t4
  (if t5.isEmpty then "section".toList else t5) ++ ".md".toList

/-- Filename derivation as amended: identical to the claim's pipeline except
that surrounding whitespace is trimmed before collapsing runs to underscores. -/
def derive_filename_amended (text : List Char) : List Char :=
  let t1 := stripNumbering text
  let t2 := t1.filter (fun c => isAlphaNumChar c || isSpaceChar c)
  let t3 := collapseWs (strip t2)
  let t4 := t3.map toLowerChar
  let t5 := if t4.length > 50 then t4.take 50 else t4
  (if t5.isEmpty then "section".toList else t5) ++ ".md".toList

/-!
## Claim theorems
-/

/-- Claim C1, counterexample: on text `"a"` with header list `["H"]` no
header line is removed from the text, yet the single returned chunk has
body `"a\n"`, which differs from the original text `"a"`; so concatenating
chunk bodies (with the removed header lines re-interleaved) does not
reproduce the text exactly. -/
theorem chunker_reconstruction_cex :
    extract_content_between_headers "a".toList ["H".toList] =
      [⟨"Introduction".toList, "a\n".toList⟩] ∧
    headerRawLines ["H".toList] (splitLines "a".toList) = [] ∧
    "a\n".toList ≠ "a".toList := by
  refine ⟨by decide, by decide, by decide⟩

/-- Claim C1 (amended): for any text and non-empty header list, the returned
chunks are exactly the scanned segments whose trimmed bodies are non-empty,
and interleaving the bodies of all scanned segments (including the dropped
all-whitespace ones) with the removed raw header lines, each line
newline-terminated, reproduces the original text with one trailing newline
appended (each non-header line is kept newline-terminated, so the final line
gains a terminator). -/
theorem chunker_reconstruction_amended :
    ∀ (text : List Char) (h : List Char) (hs : List (List Char)),
      extract_content_between_headers text (h :: hs) =
        (extractAllAux (h :: hs) (splitLines text) "Introduction".toList []).filter
          (fun ch => !(strip ch.content).isEmpty) ∧
      weaveBodies (extractAllAux (h :: hs) (splitLines text) "Introduction".toList [])
        (headerRawLines (h :: hs) (splitLines text)) = text ++ ['\n'] := by
  intro text h hs
  constructor
  · rw [extract_content_between_headers, if_neg (by simp)]
    exact extractAux_eq_filter _ _ _ _
  · rw [extractAllAux_weave, joinNl_splitLines]
    rfl

/-- Claim C2: with a non-empty header list the extractor behaves exactly as
the line-by-line scan described by the spec (current chunk starts as
`{"Introduction", ""}`, a line whose trimmed form equals a header closes the
current chunk — kept only if its trimmed content is non-empty — and opens a
new one, any other line is appended raw plus a terminator, and the final
chunk is kept only if non-empty); on the spec's concrete scenario it returns
exactly the three stated chunks. -/
theorem chunker_followsSpec_and_scenario :
    (∀ (text : List Char) (h : List Char) (hs : List (List Char)),
      extract_content_between_headers text (h :: hs) = chunkSpec text (h :: hs)) ∧
    extract_content_between_headers
        "INTRO TEXT\nOVERVIEW\nSome overview text.\n1.1 Registers\nReg content line.".toList
        ["OVERVIEW".toList, "1.1 Registers".toList] =
      [⟨"Introduction".toList, "INTRO TEXT\n".toList⟩,
       ⟨"OVERVIEW".toList, "Some overview text.\n".toList⟩,
       ⟨"1.1 Registers".toList, "Reg content line.\n".toList⟩] := by
  constructor
  · intro text h hs
    rw [extract_content_between_headers, if_neg (by simp), chunkSpec, foldl_chunkStep_eq]
    simp
  · decide

/-- Claim C3: `detect_headers` returns exactly the trimmed lines of the text
that are non-empty and satisfy at least one of the four independent rules
(numbered-section pattern; short all-caps multi-word; short title-case
multi-word without trailing period; short line containing one of the 12
keywords), preserving line order and keeping duplicates. -/
theorem detect_headers_rule_characterization :
    ∀ text : List Char,
      detect_headers text =
        ((splitLines text).map strip).filter
          (fun l => !l.isEmpty &&
            (ruleNumbered l || ruleAllCaps l || ruleTitleCase l || ruleKeyword l)) := by
  intro text
  exact detectAux_eq_filter (splitLines text)

/-- Claim C4: categorization equals the spec's priority-ordered keyword-table
lookup, is total into the six fixed categories, and on the stated instances
resolves "Register Mechanical Notes" to registers (first group wins) and
"1.2 Electrical Characteristics" to specifications. -/
theorem categorize_table_and_instances :
    (∀ h : List Char, categorize h = categorizeSpec h) ∧
    (∀ h : List Char,
      categorize h ∈ [Category.registers, Category.specifications, Category.overview,
        Category.operation, Category.mechanical, Category.general]) ∧
    categorize "Register Mechanical Notes".toList = Category.registers ∧
    categorize "1.2 Electrical Characteristics".toList = Category.specifications := by
  refine ⟨fun h => rfl, fun h => ?_, by decide, by decide⟩
  cases hc : categorize h <;> simp

/-- Claim C5, counterexample: on input `" a"` the code's filename derivation
trims the leading whitespace and yields `"a.md"`, while the claim's literal
pipeline (which never trims before collapsing whitespace runs to
underscores) yields `"_a.md"`. -/
theorem derive_filename_pipeline_cex :
    derive_filename " a".toList = "a.md".toList ∧
    derive_filename_claim " a".toList = "_a.md".toList ∧
    derive_filename " a".toList ≠ derive_filename_claim " a".toList := by
  refine ⟨by decide, by decide, by decide⟩

/-- Claim C5 (amended): filename derivation is deterministic and total,
follows the claimed pipeline with surrounding whitespace trimmed before
collapsing runs to underscores, always produces a non-empty result ending in
".md", and maps "1.2 Electrical Characteristics" to
"electrical_characteristics.md". -/
theorem derive_filename_amended_ok :
    ∀ s : List Char,
      derive_filename s = derive_filename_amended s ∧
      derive_filename s ≠ [] ∧
      (∃ p, derive_filename s = p ++ ".md".toList) ∧
      derive_filename "1.2 Electrical Characteristics".toList =
        "electrical_characteristics.md".toList := by
  intro s
  refine ⟨rfl, ?_, ⟨clean_filename s, rfl⟩, by decide⟩
  rw [derive_filename]
  intro hcontra
  exact absurd (List.append_eq_nil.mp hcontra).2 (by decide)

/-- Claim C6: with an empty header list the extractor returns the single
chunk `{"Main Content", text}` with the content unmodified, and that header
is categorized as general. -/
theorem empty_headers_single_chunk :
    ∀ text : List Char,
      extract_content_between_headers text [] = [⟨"Main Content".toList, text⟩] ∧
      categorize "Main Content".toList = Category.general := by
  intro text
  exact ⟨rfl, by decide⟩

/-- Claim C7: the deduplication step of `process_pdf` equals the canonical
keep-first-occurrence function, yields a duplicate-free subsequence of its
input, and preserves membership — i.e. it preserves first-occurrence order
and removes exactly the repeated text values. -/
theorem dedup_first_occurrence :
    ∀ l : List (List Char),
      uniqueHeaders l = keepFirst l ∧ (uniqueHeaders l).Nodup ∧
        List.Sublist (uniqueHeaders l) l ∧ ∀ x, x ∈ uniqueHeaders l ↔ x ∈ l := by
  intro l
  exact uniqueHeaders_spec l

/-- Claim C8, counterexample: with page limit -5 on a 10-page document the
code processes the Python slice `pages[:-5]`, i.e. 5 pages, whereas the
claim's "min(limit, total_pages)" is -5 — the claim fails for negative
limits other than -1. -/
theorem page_limit_negative_cex :
    (pagesSelected (some (-5)) (List.replicate 10 ['p'])).length = 5 ∧
    min (-5 : Int) (10 : Int) = -5 ∧
    ((5 : Int) ≠ min (-5 : Int) (10 : Int)) := by
  refine ⟨by decide, by decide, by decide⟩

/-- Claim C8 (amended): a null or -1 limit processes all pages; a
non-negative limit `m` processes exactly the first `min(m, total)` pages;
any other negative limit `-(m+2)` is interpreted as a Python slice bound and
processes the first `total - (m+2)` pages. -/
theorem page_limit_amended :
    ∀ pages : List (List Char),
      pagesSelected none pages = pages ∧
      pagesSelected (some (-1)) pages = pages ∧
      (∀ m : Nat, pagesSelected (some (m : Int)) pages = pages.take m ∧
        (pagesSelected (some (m : Int)) pages).length = min m pages.length) ∧
      (∀ m : Nat, pagesSelected (some (-((m : Int) + 2))) pages =
        pages.take (pages.length - (m + 2))) := by
  intro pages
  refine ⟨?_, ?_, ?_, ?_⟩
  · rw [pagesSelected, pagesToProcessCount, sliceLen,
      if_pos (Int.natCast_nonneg pages.length)]
    have h1 : ((pages.length : Int)).toNat = pages.length := by omega
    rw [h1, min_self, List.take_length]
  · rw [pagesSelected, pagesToProcessCount, if_pos rfl, sliceLen,
      if_pos (Int.natCast_nonneg pages.length)]
    have h1 : ((pages.length : Int)).toNat = pages.length := by omega
    rw [h1, min_self, List.take_length]
  · intro m
    have hne : (m : Int) ≠ -1 := by omega
    have hmin : (min (m : Int) (pages.length : Int)).toNat = min m pages.length := by
      omega
    have hk : 0 ≤ min (m : Int) (pages.length : Int) := by omega
    constructor
    · rw [pagesSelected, pagesToProcessCount, if_neg hne, sliceLen, if_pos hk, hmin]
      have harr : min (min m pages.length) pages.length = min m pages.length := by omega
      rw [harr]
      exact take_min_length pages m
    · rw [pagesSelected, pagesToProcessCount, if_neg hne, sliceLen, if_pos hk, hmin,
        List.length_take]
      omega
  · intro m
    have hne : -((m : Int) + 2) ≠ -1 := by omega
    have hmin : min (-((m : Int) + 2)) (pages.length : Int) = -((m : Int) + 2) := by
      omega
    have hneg : ¬ (0 : Int) ≤ -((m : Int) + 2) := by omega
    rw [pagesSelected, pagesToProcessCount, if_neg hne, hmin, sliceLen, if_neg hneg]
    have h2 : (-(-((m : Int) + 2))).toNat = m + 2 := by omega
    rw [h2]

/-- Claim C9: the full text handed to the chunker carries a synthetic
`"\n--- PAGE n ---\n"` separator before each non-empty page, while header
detection runs only on raw per-page text; so if no line of any page trims to
the marker of a non-empty page `i`, that marker is not in the header list
(hence not a chunk boundary), and the marker line appears verbatim
(newline-terminated) inside some returned chunk body. -/
theorem page_markers_in_chunk_bodies :
    ∀ (pages : List (List Char)) (i : Nat) (hi : i < pages.length),
      pages.get ⟨i, hi⟩ ≠ [] →
      (∀ p ∈ pages, ∀ line ∈ splitLines p, strip line ≠ pageMarkerLine (i + 1)) →
      listMem (pageMarkerLine (i + 1)) (collectHeaders pages) = false ∧
      ∃ ch, ch ∈ extract_content_between_headers (buildFullText pages)
          (collectHeaders pages) ∧
        containsSub (pageMarkerLine (i + 1) ++ ['\n']) ch.content = true := by
  intro pages i hi hne hstand
  have hnotmem : pageMarkerLine (i + 1) ∉ collectHeaders pages := by
    intro hmem
    obtain ⟨p, hp, line, hline, heq⟩ := mem_collectHeaders hmem
    exact hstand p hp line hline heq.symm
  have hfalse : listMem (pageMarkerLine (i + 1)) (collectHeaders pages) = false := by
    cases hh : listMem (pageMarkerLine (i + 1)) (collectHeaders pages)
    · rfl
    · exact absurd ((listMem_iff _ _).mp hh) hnotmem
  refine ⟨hfalse, ?_⟩
  obtain ⟨pre, suf, heq⟩ := buildFullTextAux_marker pages 0 i hi hne
  have hidx : (0 : Nat) + i + 1 = i + 1 := by omega
  rw [hidx] at heq
  have hmarkmem : pageMarkerLine (i + 1) ∈ splitLines (buildFullText pages) := by
    rw [show buildFullText pages = buildFullTextAux 0 pages from rfl, heq,
      splitLines_append, splitLines_append,
      splitLines_no_newline _ (pageMarkerLine_no_newline (i + 1))]
    simp
  cases hcase : collectHeaders pages with
  | nil =>
    refine ⟨⟨"Main Content".toList, buildFullText pages⟩, ?_, ?_⟩
    · simp only [extract_content_between_headers, hcase, List.isEmpty_nil, if_true]
      simp
    · rw [show buildFullText pages = buildFullTextAux 0 pages from rfl, heq]
      have hsh : pre ++ '\n' :: (pageMarkerLine (i + 1) ++ '\n' :: suf) =
          (pre ++ ['\n']) ++ (pageMarkerLine (i + 1) ++ ['\n']) ++ suf := by
        simp [List.append_assoc]
      rw [hsh]
      exact containsSub_at _ _ _
  | cons h0 hs0 =>
    have hext : extract_content_between_headers (buildFullText pages)
        (collectHeaders pages) =
        extractAux (collectHeaders pages) (splitLines (buildFullText pages))
          "Introduction".toList [] := by
      rw [extract_content_between_headers, if_neg (by simp [hcase])]
    obtain ⟨ch, hch, hcc⟩ :=
      extractAux_line_in_body (collectHeaders pages) (pageMarkerLine (i + 1))
        (by rw [strip_pageMarkerLine]; exact hfalse)
        (by rw [strip_pageMarkerLine]; simp [pageMarkerLine])
        (splitLines (buildFullText pages)) "Introduction".toList [] hmarkmem
    refine ⟨ch, ?_, hcc⟩
    rw [← hcase, hext]
    exact hch

/-- Witness for Claim C9 at the concrete input `pages = ["hi"]`, `i = 0`. -/
theorem page_markers_in_chunk_bodies_witness :
    listMem (pageMarkerLine 1) (collectHeaders ["hi".toList]) = false ∧
    ∃ ch, ch ∈ extract_content_between_headers (buildFullText ["hi".toList])
        (collectHeaders ["hi".toList]) ∧
      containsSub (pageMarkerLine 1 ++ ['\n']) ch.content = true :=
  page_markers_in_chunk_bodies ["hi".toList] 0 (by decide) (by decide) (by decide)

/-- Claim C10: filename derivation is not injective — the distinct headers
"1.1 Overview" and "2. Overview" both map to "overview.md" — and
`create_directory_structure` appends both file records to the same category
without any uniqueness check, so the structure holds two files with
identical filenames in one category. -/
theorem duplicate_filenames_in_structure :
    clean_filename "1.1 Overview".toList = clean_filename "2. Overview".toList ∧
    "1.1 Overview".toList ≠ "2. Overview".toList ∧
    create_directory_structure
        [⟨"1.1 Overview".toList, "a".toList⟩, ⟨"2. Overview".toList, "b".toList⟩] =
      [(Category.overview,
        [⟨"overview.md".toList, "1.1 Overview".toList, "a".toList⟩,
         ⟨"overview.md".toList, "2. Overview".toList, "b".toList⟩])] := by
  refine ⟨by decide, by decide, by decide⟩
